import Mathlib

/-!
Shallow embedding of the password generator (src/models.rs, src/generator.rs).

Modelling conventions:
* `u8` lengths become `Nat`; claims about the `[0, 255]` range carry an
  explicit `len ≤ 255` hypothesis.
* The OS-entropy RNG (`StdRng::from_entropy`) is modelled as an arbitrary
  stream of naturals `ℕ → ℕ`; `rng.gen_range(0..n)` takes the next value of
  the stream modulo `n` and advances the stream.  On an empty slice the Rust
  call would panic; every call site in the program passes a non-empty slice,
  and the model returns `default` there, which is never reached.
* `VecDeque` becomes `List` with the head as the front of the deque.
* `f64` arithmetic in `get_password_strength` is modelled with exact real
  arithmetic (`ℝ`, `Real.log`, real exponentiation), the standard
  idealisation of the floating-point formula; that part of the model is
  necessarily noncomputable.
* `&mut self` methods thread the `Generator` state explicitly and return it;
  the `&self` method `get_password_strength` cannot mutate the generator
  (no interior mutability in any field), which `get_password_strength_call`
  records by returning the receiver unchanged.
-/

/-- src/models.rs: `SYMBOLS` (32 punctuation characters). -/
def SYMBOLS : String := "!\"#$%&\x27()*+,-./:;<=>?@[\\]^_`\x7b|\x7d~"

/-- src/models.rs: `LOWERCASE`. -/
def LOWERCASE : String := "abcdefghijklmnopqrstuvwxyz"

/-- src/models.rs: `UPPERCASE`. -/
def UPPERCASE : String := "ABCDEFGHIJKLMNOPQRSTUVWXYZ"

/-- src/models.rs: `DIGITS`. -/
def DIGITS : String := "0123456789"

/-- src/models.rs: `PasswordCharRule`. -/
inductive PasswordCharRule where
  | Symbols
  | Lower
  | Upper
  | Digit
deriving DecidableEq, Repr, Inhabited

/-- src/models.rs: `InsertDirection`. -/
inductive InsertDirection where
  | Front
  | Back
deriving DecidableEq, Repr, Inhabited

/-- src/generator.rs: `struct Generator`.  The four character pools plus the
RNG, the latter modelled as a stream of naturals. -/
structure Generator where
  lower : List Char
  upper : List Char
  digit : List Char
  symbol : List Char
  rng : Nat → Nat

/-- src/generator.rs: `Generator::new`.  The pools are collected from the
constant alphabets; the entropy seed becomes the stream parameter. -/
def Generator.new (rng : Nat → Nat) : Generator :=
  { lower := LOWERCASE.data
    upper := UPPERCASE.data
    digit := DIGITS.data
    symbol := SYMBOLS.data
    rng := rng }

/-- src/generator.rs: `Generator::get_random_element`.
`gen_range(0..elements.len())` is modelled as the next stream value modulo
the slice length; the RNG state advances by one position. -/
def Generator.get_random_element {α : Type} [Inhabited α] (g : Generator)
    (elements : List α) : α × Generator :=
  let i := g.rng 0 % elements.length
  (elements.getD i default, { g with rng := fun n => g.rng (n + 1) })

/-- src/generator.rs lines 127-139: the `distributed_rules` queue, holding
exactly the enabled rule tags pushed in the fixed order Symbols, Digit,
Lower, Upper. -/
def distributed_rules (with_symbols with_numbers with_uppercase with_lowercase : Bool) :
    List PasswordCharRule :=
  (if with_symbols then [PasswordCharRule.Symbols] else []) ++
  (if with_numbers then [PasswordCharRule.Digit] else []) ++
  (if with_lowercase then [PasswordCharRule.Lower] else []) ++
  (if with_uppercase then [PasswordCharRule.Upper] else [])

/-- src/generator.rs lines 141-148: the `while len > 0` loop.  Each
iteration pops the front of the queue (when non-empty), records it, pushes
it back, and decrements `len`; the recursion is on `len`. -/
def distribute_loop : Nat → List PasswordCharRule → List PasswordCharRule
  | 0, _ => []
  | Nat.succ n, [] => distribute_loop n []
  | Nat.succ n, next :: rest => next :: distribute_loop n (rest ++ [next])

/-- src/generator.rs lines 150-157: the random front/back insertion loop.
`acc` is the `password_char_rules` deque being built (head = front). -/
def shuffle_loop (g : Generator) (rules : List PasswordCharRule)
    (acc : List PasswordCharRule) : List PasswordCharRule × Generator :=
  match rules with
  | [] => (acc, g)
  | rule :: rest =>
    let res := g.get_random_element [InsertDirection.Back, InsertDirection.Front]
    match res.1 with
    | InsertDirection.Back => shuffle_loop res.2 rest (acc ++ [rule])
    | InsertDirection.Front => shuffle_loop res.2 rest (rule :: acc)

/-- src/generator.rs: `Generator::generate_password_rules`. -/
def Generator.generate_password_rules (g : Generator) (len : Nat)
    (with_symbols with_numbers with_uppercase with_lowercase : Bool) :
    List PasswordCharRule × Generator :=
  let dr := distributed_rules with_symbols with_numbers with_uppercase with_lowercase
  let password_char_rules_unsorted := distribute_loop len dr
  shuffle_loop g password_char_rules_unsorted []

/-- The pool selected by the `match rule` in `fill_password`
(lines 178-183), over the pools cloned at the start of the call. -/
def rule_pool (lower upper digit symbol : List Char) :
    PasswordCharRule → List Char
  | PasswordCharRule.Upper => upper
  | PasswordCharRule.Lower => lower
  | PasswordCharRule.Digit => digit
  | PasswordCharRule.Symbols => symbol

/-- src/generator.rs lines 177-184: the `map`/`collect` over the rule
sequence, threading the RNG state left to right. -/
def fill_loop (lower upper digit symbol : List Char) (g : Generator) :
    List PasswordCharRule → List Char × Generator
  | [] => ([], g)
  | rule :: rest =>
    let res := g.get_random_element (rule_pool lower upper digit symbol rule)
    let tail := fill_loop lower upper digit symbol res.2 rest
    (res.1 :: tail.1, tail.2)

/-- src/generator.rs: `Generator::fill_password`.  The four pools are cloned
before the iteration (they are never mutated), then each rule is mapped to a
random element of its pool. -/
def Generator.fill_password (g : Generator) (password_rules : List PasswordCharRule) :
    String × Generator :=
  let res := fill_loop g.lower g.upper g.digit g.symbol g password_rules
  (res.1.asString, res.2)

/-- src/generator.rs: `Generator::generate_password`. -/
def Generator.generate_password (g : Generator) (len : Nat)
    (with_symbols with_numbers with_uppercase with_lowercase : Bool) :
    String × Generator :=
  let res := g.generate_password_rules len with_symbols with_numbers
    with_uppercase with_lowercase
  res.2.fill_password res.1

/-- src/generator.rs: `Generator::get_password_strength`, the `&self`
method.  `a.log(b)` in Rust is the base-`b` logarithm `ln a / ln b`; `powf`
is real exponentiation.  Modelled in exact real arithmetic. -/
noncomputable def Generator.get_password_strength (_g : Generator) (len : Nat)
    (with_symbols with_numbers with_uppercase with_lowercase : Bool) : ℝ :=
  if len = 0 then 0
  else if len = 1 then 0
  else
    let max_multiplier : ℝ := 32.0 + 10.0 + 26.0 + 26.0
    let multiplier : ℝ :=
      (if with_symbols then 32.0 else 0) + (if with_numbers then 10.0 else 0) +
      (if with_uppercase then 26.0 else 0) + (if with_lowercase then 26.0 else 0)
    let a : ℝ := (len : ℝ) ^ multiplier
    let b : ℝ := (255.0 : ℝ) ^ max_multiplier
    20.0 + (Real.log a / Real.log b) * 80.0

/-- A call to the `&self` method `get_password_strength`: it returns the
strength and leaves the receiver unchanged (no field of `Generator` has
interior mutability, so a shared borrow cannot mutate it). -/
noncomputable def Generator.get_password_strength_call (g : Generator) (len : Nat)
    (with_symbols with_numbers with_uppercase with_lowercase : Bool) :
    ℝ × Generator :=
  (g.get_password_strength len with_symbols with_numbers with_uppercase with_lowercase, g)

/-- Iteration count of the `while len > 0` loop (lines 142-148): the loop
body with an added counter; one iteration per decrement of `len`, whether or
not the queue pop succeeds. -/
def distribute_steps : Nat → List PasswordCharRule → Nat
  | 0, _ => 0
  | Nat.succ n, [] => distribute_steps n [] + 1
  | Nat.succ n, next :: rest => distribute_steps n (rest ++ [next]) + 1

/-- Iteration count of the front/back insertion loop (lines 152-157): one
iteration per element of `password_char_rules_unsorted`. -/
def shuffle_steps : List PasswordCharRule → Nat
  | [] => 0
  | _ :: rest => shuffle_steps rest + 1

/-- Iteration count of the fill map (lines 177-184): one iteration per rule. -/
def fill_steps : List PasswordCharRule → Nat
  | [] => 0
  | _ :: rest => fill_steps rest + 1

/-- Total loop iterations performed by one `generate_password` call. -/
def generate_password_steps (len : Nat)
    (with_symbols with_numbers with_uppercase with_lowercase : Bool) : Nat :=
  let dr := distributed_rules with_symbols with_numbers with_uppercase with_lowercase
  let unsorted := distribute_loop len dr
  distribute_steps len dr + shuffle_steps unsorted + fill_steps unsorted

/-! ### Basic facts about the distribute loop -/

lemma distribute_loop_nil (n : Nat) : distribute_loop n [] = [] := by
  induction n with
  | zero => rfl
  | succ n ih => simpa [distribute_loop] using ih

lemma distribute_loop_length (n : Nat) (q : List PasswordCharRule) (hq : q ≠ []) :
    (distribute_loop n q).length = n := by
  induction n generalizing q with
  | zero => rfl
  | succ n ih =>
    cases q with
    | nil => exact absurd rfl hq
    | cons a t => simp [distribute_loop, ih (t ++ [a]) (by simp)]

lemma distribute_loop_length_le (n : Nat) (q : List PasswordCharRule) :
    (distribute_loop n q).length ≤ n := by
  induction n generalizing q with
  | zero => simp [distribute_loop]
  | succ n ih =>
    cases q with
    | nil =>
      rw [distribute_loop_nil]
      exact Nat.zero_le _
    | cons a t =>
      simpa [distribute_loop] using Nat.succ_le_succ (ih (t ++ [a]))

lemma distribute_loop_subset (n : Nat) (q : List PasswordCharRule) :
    ∀ x ∈ distribute_loop n q, x ∈ q := by
  induction n generalizing q with
  | zero => simp [distribute_loop]
  | succ n ih =>
    cases q with
    | nil => simp [distribute_loop_nil]
    | cons a t =>
      intro x hx
      simp only [distribute_loop, List.mem_cons] at hx ⊢
      rcases hx with rfl | hx
      · exact Or.inl rfl
      · have h := ih (t ++ [a]) x hx
        simp only [List.mem_append, List.mem_singleton] at h
        tauto

/-! ### One full round of the queue returns it to its starting state -/

lemma distribute_loop_append_round (q₁ : List PasswordCharRule) :
    ∀ (q₂ : List PasswordCharRule) (m : Nat),
      distribute_loop (q₁.length + m) (q₁ ++ q₂) = q₁ ++ distribute_loop m (q₂ ++ q₁) := by
  induction q₁ with
  | nil => intro q₂ m; simp
  | cons a t ih =>
    intro q₂ m
    have e1 : (a :: t).length + m = (t.length + m) + 1 := by
      simp [Nat.succ_add]
    rw [e1]
    show distribute_loop ((t.length + m) + 1) (a :: (t ++ q₂)) = _
    rw [show distribute_loop ((t.length + m) + 1) (a :: (t ++ q₂))
          = a :: distribute_loop (t.length + m) ((t ++ q₂) ++ [a]) from rfl]
    rw [List.append_assoc, ih (q₂ ++ [a]) m, List.append_assoc]
    simp

lemma distribute_loop_round (q : List PasswordCharRule) (m : Nat) :
    distribute_loop (q.length + m) q = q ++ distribute_loop m q := by
  simpa using distribute_loop_append_round q [] m

lemma distribute_loop_take (m : Nat) (q : List PasswordCharRule) (h : m ≤ q.length) :
    distribute_loop m q = q.take m := by
  induction m generalizing q with
  | zero => simp [distribute_loop]
  | succ m ih =>
    cases q with
    | nil => simp at h
    | cons a t =>
      have hm : m ≤ t.length := by simpa using h
      have htake := ih (t ++ [a]) (by simp; omega)
      simp only [distribute_loop, htake, List.take_append_of_le_length hm,
        List.take_succ_cons]

/-! ### Counting occurrences in the round-robin output -/

lemma distribute_loop_count_rounds (q : List PasswordCharRule) (c : PasswordCharRule) :
    ∀ (r m : Nat),
      List.count c (distribute_loop (r * q.length + m) q)
        = r * List.count c q + List.count c (distribute_loop m q) := by
  intro r
  induction r with
  | zero => intro m; simp
  | succ r ih =>
    intro m
    have e : (r + 1) * q.length + m = q.length + (r * q.length + m) := by ring
    rw [e, distribute_loop_round, List.count_append, ih m]
    ring

lemma ceil_div_of_mod_ne_zero (n k : Nat) (hk : 0 < k) (hr : n % k ≠ 0) :
    (n + k - 1) / k = n / k + 1 := by
  have h1 : 1 ≤ n % k := Nat.one_le_iff_ne_zero.mpr hr
  have h2 : n % k < k := Nat.mod_lt _ hk
  have hdm := Nat.div_add_mod n k
  have e : n + k - 1 = (n % k - 1 + k) + k * (n / k) := by omega
  rw [e, Nat.add_mul_div_left _ _ hk, Nat.add_div_right _ hk,
    Nat.div_eq_of_lt (by omega)]
  omega

lemma distribute_loop_count (n : Nat) (q : List PasswordCharRule)
    (c : PasswordCharRule) (hnd : q.Nodup) (hc : c ∈ q) :
    List.count c (distribute_loop n q) = n / q.length ∨
    List.count c (distribute_loop n q) = (n + q.length - 1) / q.length := by
  have hk : 0 < q.length := List.length_pos.mpr (List.ne_nil_of_mem hc)
  have hone : List.count c q = 1 := List.count_eq_one_of_mem hnd hc
  have e : (n / q.length) * q.length + n % q.length = n := by
    rw [Nat.mul_comm]
    exact Nat.div_add_mod n q.length
  have hcount := distribute_loop_count_rounds q c (n / q.length) (n % q.length)
  rw [e, hone, Nat.mul_one] at hcount
  have htle : List.count c (distribute_loop (n % q.length) q) ≤ 1 := by
    rw [distribute_loop_take _ _ (le_of_lt (Nat.mod_lt _ hk))]
    calc List.count c (q.take (n % q.length)) ≤ List.count c q :=
          (List.take_sublist _ _).count_le c
    _ = 1 := hone
  rcases Nat.le_one_iff_eq_zero_or_eq_one.mp htle with h0 | h1
  · left
    rw [hcount, h0]
    omega
  · have hmod : n % q.length ≠ 0 := by
      intro hz
      rw [hz] at h1
      simp [distribute_loop] at h1
    right
    rw [ceil_div_of_mod_ne_zero n q.length hk hmod, hcount, h1]


/-! ### Position `i` of the round-robin output is class `i mod k` -/

lemma distribute_loop_getD (q : List PasswordCharRule) (hq : q ≠ [])
    (d : PasswordCharRule) :
    ∀ n i, i < n → (distribute_loop n q).getD i d = q.getD (i % q.length) d := by
  have hk : 0 < q.length := List.length_pos.mpr hq
  intro n
  induction n using Nat.strong_induction_on with
  | _ n ih =>
    intro i hi
    rcases le_or_lt n q.length with hle | hgt
    · rw [distribute_loop_take n q hle]
      rw [List.getD_eq_getElem?_getD, List.getElem?_take_of_lt hi,
        ← List.getD_eq_getElem?_getD, Nat.mod_eq_of_lt (lt_of_lt_of_le hi hle)]
    · have hm : n = q.length + (n - q.length) := by omega
      rw [hm, distribute_loop_round]
      rcases lt_or_ge i q.length with hilt | hige
      · rw [List.getD_append _ _ _ _ hilt, Nat.mod_eq_of_lt hilt]
      · rw [List.getD_append_right _ _ _ _ hige,
          ih (n - q.length) (by omega) (i - q.length) (by omega)]
        congr 1
        conv_rhs => rw [show i = (i - q.length) + q.length by omega]
        rw [Nat.add_mod_right]

/-! ### The shuffle phase is a permutation of its input -/

lemma shuffle_loop_perm (rules : List PasswordCharRule) :
    ∀ (g : Generator) (acc : List PasswordCharRule),
      (shuffle_loop g rules acc).1.Perm (acc ++ rules) := by
  induction rules with
  | nil => intro g acc; simp [shuffle_loop]
  | cons r rest ih =>
    intro g acc
    rw [shuffle_loop]
    cases h : (g.get_random_element [InsertDirection.Back, InsertDirection.Front]).1 with
    | Back =>
      simp only [h]
      have hp := ih (g.get_random_element [InsertDirection.Back, InsertDirection.Front]).2
        (acc ++ [r])
      simpa using hp
    | Front =>
      simp only [h]
      have hp := ih (g.get_random_element [InsertDirection.Back, InsertDirection.Front]).2
        (r :: acc)
      exact hp.trans List.perm_middle.symm

/-! ### The fill phase: one character per rule, drawn from the rule's pool -/

lemma getD_mod_mem {α : Type} [Inhabited α] (l : List α) (i : Nat) (h : l ≠ []) :
    l.getD (i % l.length) default ∈ l := by
  have hk : 0 < l.length := List.length_pos.mpr h
  have hi : i % l.length < l.length := Nat.mod_lt _ hk
  rw [List.getD_eq_getElem l default hi]
  exact List.getElem_mem hi

lemma get_random_element_mem {α : Type} [Inhabited α] (g : Generator)
    (l : List α) (h : l ≠ []) : (g.get_random_element l).1 ∈ l := by
  simp only [Generator.get_random_element]
  exact getD_mod_mem l (g.rng 0) h

lemma fill_loop_length (lower upper digit symbol : List Char)
    (rules : List PasswordCharRule) :
    ∀ g : Generator,
      (fill_loop lower upper digit symbol g rules).1.length = rules.length := by
  induction rules with
  | nil => intro g; rfl
  | cons r rest ih => intro g; simp [fill_loop, ih]

lemma rule_pool_ne_nil (lower upper digit symbol : List Char)
    (hl : lower ≠ []) (hu : upper ≠ []) (hd : digit ≠ []) (hs : symbol ≠ [])
    (r : PasswordCharRule) : rule_pool lower upper digit symbol r ≠ [] := by
  cases r <;> simpa [rule_pool]

lemma fill_loop_mem_pool (lower upper digit symbol : List Char)
    (hl : lower ≠ []) (hu : upper ≠ []) (hd : digit ≠ []) (hs : symbol ≠ [])
    (rules : List PasswordCharRule) :
    ∀ g : Generator, ∀ c ∈ (fill_loop lower upper digit symbol g rules).1,
      ∃ r ∈ rules, c ∈ rule_pool lower upper digit symbol r := by
  induction rules with
  | nil => intro g c hc; simp [fill_loop] at hc
  | cons r rest ih =>
    intro g c hc
    simp only [fill_loop, List.mem_cons] at hc
    rcases hc with hc | hc
    · refine ⟨r, List.mem_cons_self r rest, ?_⟩
      rw [hc]
      exact get_random_element_mem _ _
        (rule_pool_ne_nil lower upper digit symbol hl hu hd hs r)
    · rcases ih _ c hc with ⟨r2, hr2, hcr2⟩
      exact ⟨r2, List.mem_cons_of_mem r hr2, hcr2⟩

lemma fill_loop_pool_rep (lower upper digit symbol : List Char)
    (rules : List PasswordCharRule) :
    ∀ (g : Generator) (r : PasswordCharRule), r ∈ rules →
      rule_pool lower upper digit symbol r ≠ [] →
      ∃ c ∈ (fill_loop lower upper digit symbol g rules).1,
        c ∈ rule_pool lower upper digit symbol r := by
  induction rules with
  | nil => intro g r h; simp at h
  | cons a rest ih =>
    intro g r hr hpool
    rcases List.mem_cons.mp hr with heq | hmem
    · subst heq
      refine ⟨(g.get_random_element (rule_pool lower upper digit symbol r)).1,
        ?_, get_random_element_mem _ _ hpool⟩
      simp [fill_loop]
    · rcases ih _ r hmem hpool with ⟨c, hc1, hc2⟩
      refine ⟨c, ?_, hc2⟩
      simp only [fill_loop, List.mem_cons]
      exact Or.inr hc1

/-! ### The enabled-classes queue -/

lemma distributed_rules_nodup (ws wn wu wl : Bool) :
    (distributed_rules ws wn wu wl).Nodup := by
  cases ws <;> cases wn <;> cases wu <;> cases wl <;> decide

lemma mem_distributed_rules_symbols (ws wn wu wl : Bool) :
    PasswordCharRule.Symbols ∈ distributed_rules ws wn wu wl ↔ ws = true := by
  cases ws <;> cases wn <;> cases wu <;> cases wl <;> decide

lemma mem_distributed_rules_digit (ws wn wu wl : Bool) :
    PasswordCharRule.Digit ∈ distributed_rules ws wn wu wl ↔ wn = true := by
  cases ws <;> cases wn <;> cases wu <;> cases wl <;> decide

lemma mem_distributed_rules_upper (ws wn wu wl : Bool) :
    PasswordCharRule.Upper ∈ distributed_rules ws wn wu wl ↔ wu = true := by
  cases ws <;> cases wn <;> cases wu <;> cases wl <;> decide

lemma mem_distributed_rules_lower (ws wn wu wl : Bool) :
    PasswordCharRule.Lower ∈ distributed_rules ws wn wu wl ↔ wl = true := by
  cases ws <;> cases wn <;> cases wu <;> cases wl <;> decide

lemma distributed_rules_ne_nil (ws wn wu wl : Bool)
    (h : ws = true ∨ wn = true ∨ wu = true ∨ wl = true) :
    distributed_rules ws wn wu wl ≠ [] := by
  cases ws <;> cases wn <;> cases wu <;> cases wl <;> first | decide | simp_all

/-! ### The four alphabets are pairwise disjoint -/

lemma lower_not_upper : ∀ c ∈ LOWERCASE.data, c ∉ UPPERCASE.data := by decide

lemma lower_not_digit : ∀ c ∈ LOWERCASE.data, c ∉ DIGITS.data := by decide

lemma lower_not_symbol : ∀ c ∈ LOWERCASE.data, c ∉ SYMBOLS.data := by decide

lemma upper_not_lower : ∀ c ∈ UPPERCASE.data, c ∉ LOWERCASE.data := by decide

lemma upper_not_digit : ∀ c ∈ UPPERCASE.data, c ∉ DIGITS.data := by decide

lemma upper_not_symbol : ∀ c ∈ UPPERCASE.data, c ∉ SYMBOLS.data := by decide

lemma digit_not_lower : ∀ c ∈ DIGITS.data, c ∉ LOWERCASE.data := by decide

lemma digit_not_upper : ∀ c ∈ DIGITS.data, c ∉ UPPERCASE.data := by decide

lemma digit_not_symbol : ∀ c ∈ DIGITS.data, c ∉ SYMBOLS.data := by decide

lemma symbol_not_lower : ∀ c ∈ SYMBOLS.data, c ∉ LOWERCASE.data := by decide

lemma symbol_not_upper : ∀ c ∈ SYMBOLS.data, c ∉ UPPERCASE.data := by decide

lemma symbol_not_digit : ∀ c ∈ SYMBOLS.data, c ∉ DIGITS.data := by decide

/-! ### Loop iteration counts -/

lemma distribute_steps_eq (n : Nat) (q : List PasswordCharRule) :
    distribute_steps n q = n := by
  induction n generalizing q with
  | zero => rfl
  | succ n ih =>
    cases q with
    | nil => simp [distribute_steps, ih]
    | cons a t => simp [distribute_steps, ih]

lemma shuffle_steps_eq (l : List PasswordCharRule) : shuffle_steps l = l.length := by
  induction l with
  | nil => rfl
  | cons a t ih => simp [shuffle_steps, ih]

lemma fill_steps_eq (l : List PasswordCharRule) : fill_steps l = l.length := by
  induction l with
  | nil => rfl
  | cons a t ih => simp [fill_steps, ih]

lemma length_asString (l : List Char) : (List.asString l).length = l.length := rfl

lemma data_asString (l : List Char) : (List.asString l).data = l := rfl

/-! ### Pools survive the shuffle phase unchanged -/

lemma shuffle_loop_fields (rules : List PasswordCharRule) :
    ∀ (g : Generator) (acc : List PasswordCharRule),
      ((shuffle_loop g rules acc).2).lower = g.lower ∧
      ((shuffle_loop g rules acc).2).upper = g.upper ∧
      ((shuffle_loop g rules acc).2).digit = g.digit ∧
      ((shuffle_loop g rules acc).2).symbol = g.symbol := by
  induction rules with
  | nil => intro g acc; exact ⟨rfl, rfl, rfl, rfl⟩
  | cons r rest ih =>
    intro g acc
    rw [shuffle_loop]
    cases h : (g.get_random_element [InsertDirection.Back, InsertDirection.Front]).1 with
    | Back => simp only [h]; exact ih _ _
    | Front => simp only [h]; exact ih _ _

/-! ### Claim theorems -/

/-- C1: for every length in `[0, 255]` and every combination of the four
class flags with at least one flag enabled, `generate_password` returns a
string of exactly `length` characters. -/
theorem generate_password_length (r : Nat → Nat) (len : Nat) (ws wn wu wl : Bool)
    (hlen : len ≤ 255) (hflag : ws = true ∨ wn = true ∨ wu = true ∨ wl = true) :
    ((Generator.new r).generate_password len ws wn wu wl).1.length = len := by
  have hq := distributed_rules_ne_nil ws wn wu wl hflag
  have h1 : (distribute_loop len (distributed_rules ws wn wu wl)).length = len :=
    distribute_loop_length len _ hq
  simp only [Generator.generate_password, Generator.generate_password_rules,
    Generator.fill_password, length_asString]
  rw [fill_loop_length, (shuffle_loop_perm _ _ _).length_eq]
  simpa using h1

/-- Witness for C1: length 10 with all four classes enabled, on a concrete
RNG stream. -/
theorem generate_password_length_witness :
    (10 : Nat) ≤ 255 ∧
    ((Generator.new (fun _ => 0)).generate_password 10 true true true true).1.length = 10 :=
  ⟨by decide,
    generate_password_length (fun _ => 0) 10 true true true true (by decide) (Or.inl rfl)⟩

/-- C2 (behaviour of the code at the failing input): with all four flags
false and length 10, `generate_password` silently returns the empty string;
no error of any kind is signalled, contradicting the required explicit
`NoClassEnabled` rejection. -/
theorem generate_password_all_false_value :
    ((Generator.new (fun _ => 0)).generate_password 10 false false false false).1 = "" := by
  decide

/-- C9: for every length in `[0, 255]`, when all four class flags are false
`generate_password` terminates normally and returns the empty string: the
pop from the empty rule queue silently yields no tags, so nothing is
filled. -/
theorem generate_password_no_flags_empty (r : Nat → Nat) (len : Nat)
    (hlen : len ≤ 255) :
    ((Generator.new r).generate_password len false false false false).1 = "" := by
  simp only [Generator.generate_password, Generator.generate_password_rules,
    Generator.fill_password]
  rw [show distributed_rules false false false false = [] from rfl, distribute_loop_nil]
  rfl

/-- Witness for C9 at length 42 on a concrete RNG stream. -/
theorem generate_password_no_flags_empty_witness :
    (42 : Nat) ≤ 255 ∧
    ((Generator.new (fun n => n + 1)).generate_password 42 false false false false).1 = "" :=
  ⟨by decide, generate_password_no_flags_empty (fun n => n + 1) 42 (by decide)⟩

/-- C7: `get_password_strength` returns exactly `0.0` at length 0 and at
length 1, for every combination of the four class flags. -/
theorem get_password_strength_len_le_one (g : Generator) (ws wn wu wl : Bool) :
    g.get_password_strength 0 ws wn wu wl = 0 ∧
    g.get_password_strength 1 ws wn wu wl = 0 := by
  constructor <;> simp [Generator.get_password_strength]

/-- C10: `get_password_strength` takes the generator by shared reference:
a call leaves the state (pools and RNG) unchanged, a repeated call with the
same arguments returns the same value, an interleaved `generate_password`
call is unaffected, and the result does not depend on the generator state
at all (no randomness is consumed). -/
theorem get_password_strength_frame (g g2 : Generator) (len len2 : Nat)
    (ws wn wu wl ws2 wn2 wu2 wl2 : Bool) :
    (g.get_password_strength_call len ws wn wu wl).2 = g ∧
    ((g.get_password_strength_call len2 ws2 wn2 wu2 wl2).2).get_password_strength len ws wn wu wl
        = g.get_password_strength len ws wn wu wl ∧
    ((g.get_password_strength_call len2 ws2 wn2 wu2 wl2).2).generate_password len ws wn wu wl
        = g.generate_password len ws wn wu wl ∧
    g.get_password_strength len ws wn wu wl = g2.get_password_strength len ws wn wu wl :=
  ⟨rfl, rfl, rfl, rfl⟩

/-- C8: `generate_password` terminates on every input in its domain,
including all flags false; the distribute loop runs exactly `len`
iterations and the shuffle and fill loops once per distributed tag, for a
total of at most `3 * len` iterations, and the result never exceeds `len`
characters. -/
theorem generate_password_steps_linear (r : Nat → Nat) (len : Nat)
    (ws wn wu wl : Bool) (hlen : len ≤ 255) :
    generate_password_steps len ws wn wu wl
        = len + 2 * (distribute_loop len (distributed_rules ws wn wu wl)).length ∧
    generate_password_steps len ws wn wu wl ≤ 3 * len ∧
    ((Generator.new r).generate_password len ws wn wu wl).1.length ≤ len := by
  have hL := distribute_loop_length_le len (distributed_rules ws wn wu wl)
  have he : generate_password_steps len ws wn wu wl
      = len + 2 * (distribute_loop len (distributed_rules ws wn wu wl)).length := by
    simp only [generate_password_steps, distribute_steps_eq, shuffle_steps_eq,
      fill_steps_eq]
    ring
  refine ⟨he, by omega, ?_⟩
  simp only [Generator.generate_password, Generator.generate_password_rules,
    Generator.fill_password, length_asString]
  rw [fill_loop_length, (shuffle_loop_perm _ _ _).length_eq]
  simpa using hL

/-- Witness for C8 at length 9 with symbols and lowercase enabled. -/
theorem generate_password_steps_linear_witness :
    (9 : Nat) ≤ 255 ∧
    (generate_password_steps 9 true false false true
        = 9 + 2 * (distribute_loop 9 (distributed_rules true false false true)).length ∧
     generate_password_steps 9 true false false true ≤ 3 * 9 ∧
     ((Generator.new (fun _ => 0)).generate_password 9 true false false true).1.length ≤ 9) :=
  ⟨by decide, generate_password_steps_linear (fun _ => 0) 9 true false false true (by decide)⟩

/-- C3: for every length and every flag set with at least one enabled class,
the distribute phase yields exactly `len` tags, each enabled class occurs
`len / k` or `ceil(len / k)` times (`k` = number of enabled classes), and
position `i` holds the class at index `i mod k` of the fixed
Symbols-Digits-Lowercase-Uppercase order. -/
theorem distribute_round_robin (len : Nat) (ws wn wu wl : Bool)
    (hflag : ws = true ∨ wn = true ∨ wu = true ∨ wl = true) :
    (distribute_loop len (distributed_rules ws wn wu wl)).length = len ∧
    (∀ c ∈ distributed_rules ws wn wu wl,
      List.count c (distribute_loop len (distributed_rules ws wn wu wl))
          = len / (distributed_rules ws wn wu wl).length ∨
      List.count c (distribute_loop len (distributed_rules ws wn wu wl))
          = (len + (distributed_rules ws wn wu wl).length - 1)
              / (distributed_rules ws wn wu wl).length) ∧
    (∀ i, i < len →
      (distribute_loop len (distributed_rules ws wn wu wl)).getD i PasswordCharRule.Symbols
        = (distributed_rules ws wn wu wl).getD
            (i % (distributed_rules ws wn wu wl).length) PasswordCharRule.Symbols) := by
  have hq := distributed_rules_ne_nil ws wn wu wl hflag
  refine ⟨distribute_loop_length _ _ hq, ?_, ?_⟩
  · intro c hc
    exact distribute_loop_count len _ c (distributed_rules_nodup ws wn wu wl) hc
  · intro i hi
    exact distribute_loop_getD _ hq _ len i hi

/-- Witness for C3 at length 7 with symbols and digits enabled. -/
theorem distribute_round_robin_witness :
    (true = true ∨ true = true ∨ false = true ∨ false = true) ∧
    ((distribute_loop 7 (distributed_rules true true false false)).length = 7 ∧
     (∀ c ∈ distributed_rules true true false false,
       List.count c (distribute_loop 7 (distributed_rules true true false false))
           = 7 / (distributed_rules true true false false).length ∨
       List.count c (distribute_loop 7 (distributed_rules true true false false))
           = (7 + (distributed_rules true true false false).length - 1)
               / (distributed_rules true true false false).length) ∧
     (∀ i, i < 7 →
       (distribute_loop 7 (distributed_rules true true false false)).getD i
           PasswordCharRule.Symbols
         = (distributed_rules true true false false).getD
             (i % (distributed_rules true true false false).length)
             PasswordCharRule.Symbols)) :=
  ⟨Or.inl rfl, distribute_round_robin 7 true true false false (Or.inl rfl)⟩

/-- C4: whenever at least one class is enabled and the length is at least
the number of enabled classes, the generated password contains at least one
character from each enabled class's pool. -/
theorem generate_password_every_enabled_class (r : Nat → Nat) (len : Nat)
    (ws wn wu wl : Bool)
    (hflag : ws = true ∨ wn = true ∨ wu = true ∨ wl = true)
    (hlen : (distributed_rules ws wn wu wl).length ≤ len) :
    (ws = true → ∃ c ∈ ((Generator.new r).generate_password len ws wn wu wl).1.data,
        c ∈ SYMBOLS.data) ∧
    (wn = true → ∃ c ∈ ((Generator.new r).generate_password len ws wn wu wl).1.data,
        c ∈ DIGITS.data) ∧
    (wu = true → ∃ c ∈ ((Generator.new r).generate_password len ws wn wu wl).1.data,
        c ∈ UPPERCASE.data) ∧
    (wl = true → ∃ c ∈ ((Generator.new r).generate_password len ws wn wu wl).1.data,
        c ∈ LOWERCASE.data) := by
  have key : ∀ R : PasswordCharRule, R ∈ distributed_rules ws wn wu wl →
      ∃ c ∈ ((Generator.new r).generate_password len ws wn wu wl).1.data,
        c ∈ rule_pool LOWERCASE.data UPPERCASE.data DIGITS.data SYMBOLS.data R := by
    intro R hR
    have hRL : R ∈ distribute_loop len (distributed_rules ws wn wu wl) := by
      have hsplit : len = (distributed_rules ws wn wu wl).length
          + (len - (distributed_rules ws wn wu wl).length) := by omega
      rw [hsplit, distribute_loop_round]
      exact List.mem_append_left _ hR
    have hperm := shuffle_loop_perm (distribute_loop len (distributed_rules ws wn wu wl))
      (Generator.new r) []
    have hRS : R ∈ (shuffle_loop (Generator.new r)
        (distribute_loop len (distributed_rules ws wn wu wl)) []).1 := by
      rw [hperm.mem_iff]
      simpa using hRL
    have hpools := shuffle_loop_fields (distribute_loop len (distributed_rules ws wn wu wl))
      (Generator.new r) []
    have hpool_ne : rule_pool
        ((shuffle_loop (Generator.new r)
          (distribute_loop len (distributed_rules ws wn wu wl)) []).2).lower
        ((shuffle_loop (Generator.new r)
          (distribute_loop len (distributed_rules ws wn wu wl)) []).2).upper
        ((shuffle_loop (Generator.new r)
          (distribute_loop len (distributed_rules ws wn wu wl)) []).2).digit
        ((shuffle_loop (Generator.new r)
          (distribute_loop len (distributed_rules ws wn wu wl)) []).2).symbol R ≠ [] := by
      rw [hpools.1, hpools.2.1, hpools.2.2.1, hpools.2.2.2]
      cases R with
      | Symbols => exact (by decide : SYMBOLS.data ≠ [])
      | Lower => exact (by decide : LOWERCASE.data ≠ [])
      | Upper => exact (by decide : UPPERCASE.data ≠ [])
      | Digit => exact (by decide : DIGITS.data ≠ [])
    obtain ⟨c, hc1, hc2⟩ := fill_loop_pool_rep _ _ _ _ _
      ((shuffle_loop (Generator.new r)
        (distribute_loop len (distributed_rules ws wn wu wl)) []).2) R hRS hpool_ne
    refine ⟨c, ?_, ?_⟩
    · simp only [Generator.generate_password, Generator.generate_password_rules,
        Generator.fill_password, data_asString]
      exact hc1
    · rw [hpools.1, hpools.2.1, hpools.2.2.1, hpools.2.2.2] at hc2
      exact hc2
  refine ⟨?_, ?_, ?_, ?_⟩
  · intro hws
    have h := key PasswordCharRule.Symbols
      ((mem_distributed_rules_symbols ws wn wu wl).mpr hws)
    simpa [rule_pool] using h
  · intro hwn
    have h := key PasswordCharRule.Digit
      ((mem_distributed_rules_digit ws wn wu wl).mpr hwn)
    simpa [rule_pool] using h
  · intro hwu
    have h := key PasswordCharRule.Upper
      ((mem_distributed_rules_upper ws wn wu wl).mpr hwu)
    simpa [rule_pool] using h
  · intro hwl
    have h := key PasswordCharRule.Lower
      ((mem_distributed_rules_lower ws wn wu wl).mpr hwl)
    simpa [rule_pool] using h

/-- Witness for C4 at length 4 with all four classes enabled. -/
theorem generate_password_every_enabled_class_witness :
    ((true = true ∨ true = true ∨ true = true ∨ true = true) ∧
     (distributed_rules true true true true).length ≤ 4) ∧
    ((true = true →
        ∃ c ∈ ((Generator.new (fun _ => 0)).generate_password 4 true true true true).1.data,
          c ∈ SYMBOLS.data) ∧
     (true = true →
        ∃ c ∈ ((Generator.new (fun _ => 0)).generate_password 4 true true true true).1.data,
          c ∈ DIGITS.data) ∧
     (true = true →
        ∃ c ∈ ((Generator.new (fun _ => 0)).generate_password 4 true true true true).1.data,
          c ∈ UPPERCASE.data) ∧
     (true = true →
        ∃ c ∈ ((Generator.new (fun _ => 0)).generate_password 4 true true true true).1.data,
          c ∈ LOWERCASE.data)) :=
  ⟨⟨Or.inl rfl, by decide⟩,
    generate_password_every_enabled_class (fun _ => 0) 4 true true true true
      (Or.inl rfl) (by decide)⟩

/-- C5: every character of a generated password belongs to the pool of an
enabled class, and no character belongs to the pool of a disabled class. -/
theorem generate_password_chars_enabled_only (r : Nat → Nat) (len : Nat)
    (ws wn wu wl : Bool) (hlen : 1 ≤ len) :
    ∀ c ∈ ((Generator.new r).generate_password len ws wn wu wl).1.data,
      ((ws = true ∧ c ∈ SYMBOLS.data) ∨ (wn = true ∧ c ∈ DIGITS.data) ∨
       (wu = true ∧ c ∈ UPPERCASE.data) ∨ (wl = true ∧ c ∈ LOWERCASE.data)) ∧
      (ws = false → c ∉ SYMBOLS.data) ∧ (wn = false → c ∉ DIGITS.data) ∧
      (wu = false → c ∉ UPPERCASE.data) ∧ (wl = false → c ∉ LOWERCASE.data) := by
  intro c hc
  simp only [Generator.generate_password, Generator.generate_password_rules,
    Generator.fill_password, data_asString] at hc
  have hpools := shuffle_loop_fields (distribute_loop len (distributed_rules ws wn wu wl))
    (Generator.new r) []
  rw [hpools.1, hpools.2.1, hpools.2.2.1, hpools.2.2.2] at hc
  obtain ⟨R, hR1, hR2⟩ := fill_loop_mem_pool (Generator.new r).lower (Generator.new r).upper
    (Generator.new r).digit (Generator.new r).symbol
    (by exact (by decide : LOWERCASE.data ≠ []))
    (by exact (by decide : UPPERCASE.data ≠ []))
    (by exact (by decide : DIGITS.data ≠ []))
    (by exact (by decide : SYMBOLS.data ≠ []))
    _ _ c hc
  have hRL : R ∈ distribute_loop len (distributed_rules ws wn wu wl) := by
    have h := (shuffle_loop_perm (distribute_loop len (distributed_rules ws wn wu wl))
      (Generator.new r) []).mem_iff.mp hR1
    simpa using h
  have hRQ : R ∈ distributed_rules ws wn wu wl := distribute_loop_subset len _ R hRL
  cases R with
  | Symbols =>
    have hR2s : c ∈ SYMBOLS.data := hR2
    have hws : ws = true := (mem_distributed_rules_symbols ws wn wu wl).mp hRQ
    refine ⟨Or.inl ⟨hws, hR2s⟩, ?_, ?_, ?_, ?_⟩
    · intro h; rw [h] at hws; exact absurd hws (by decide)
    · intro _; exact symbol_not_digit c hR2s
    · intro _; exact symbol_not_upper c hR2s
    · intro _; exact symbol_not_lower c hR2s
  | Lower =>
    have hR2s : c ∈ LOWERCASE.data := hR2
    have hwl : wl = true := (mem_distributed_rules_lower ws wn wu wl).mp hRQ
    refine ⟨Or.inr (Or.inr (Or.inr ⟨hwl, hR2s⟩)), ?_, ?_, ?_, ?_⟩
    · intro _; exact lower_not_symbol c hR2s
    · intro _; exact lower_not_digit c hR2s
    · intro _; exact lower_not_upper c hR2s
    · intro h; rw [h] at hwl; exact absurd hwl (by decide)
  | Upper =>
    have hR2s : c ∈ UPPERCASE.data := hR2
    have hwu : wu = true := (mem_distributed_rules_upper ws wn wu wl).mp hRQ
    refine ⟨Or.inr (Or.inr (Or.inl ⟨hwu, hR2s⟩)), ?_, ?_, ?_, ?_⟩
    · intro _; exact upper_not_symbol c hR2s
    · intro _; exact upper_not_digit c hR2s
    · intro h; rw [h] at hwu; exact absurd hwu (by decide)
    · intro _; exact upper_not_lower c hR2s
  | Digit =>
    have hR2s : c ∈ DIGITS.data := hR2
    have hwn : wn = true := (mem_distributed_rules_digit ws wn wu wl).mp hRQ
    refine ⟨Or.inr (Or.inl ⟨hwn, hR2s⟩), ?_, ?_, ?_, ?_⟩
    · intro _; exact digit_not_symbol c hR2s
    · intro h; rw [h] at hwn; exact absurd hwn (by decide)
    · intro _; exact digit_not_upper c hR2s
    · intro _; exact digit_not_lower c hR2s

/-- Witness for C5 at length 3 with only digits enabled. -/
theorem generate_password_chars_enabled_only_witness :
    (1 : Nat) ≤ 3 ∧
    (∀ c ∈ ((Generator.new (fun _ => 0)).generate_password 3 false true false false).1.data,
      ((false = true ∧ c ∈ SYMBOLS.data) ∨ (true = true ∧ c ∈ DIGITS.data) ∨
       (false = true ∧ c ∈ UPPERCASE.data) ∨ (false = true ∧ c ∈ LOWERCASE.data)) ∧
      (false = false → c ∉ SYMBOLS.data) ∧ (true = false → c ∉ DIGITS.data) ∧
      (false = false → c ∉ UPPERCASE.data) ∧ (false = false → c ∉ LOWERCASE.data)) :=
  ⟨by decide,
    generate_password_chars_enabled_only (fun _ => 0) 3 false true false false (by decide)⟩

/-! ### Evaluating the strength formula at length 10, all classes enabled -/

lemma strength_ten_all_eval (g : Generator) :
    g.get_password_strength 10 true true true true
      = 20 + (Real.log 10 / Real.log 255) * 80 := by
  rw [Generator.get_password_strength, if_neg (by decide : ¬ ((10:Nat) = 0)),
    if_neg (by decide : ¬ ((10:Nat) = 1))]
  simp only [if_true]
  rw [show (32.0:ℝ) + 10.0 + 26.0 + 26.0 = (94:ℝ) by norm_num]
  rw [show ((10:Nat):ℝ) = (10:ℝ) by norm_num]
  rw [show (255.0:ℝ) = (255:ℝ) by norm_num]
  rw [Real.log_rpow (by norm_num : (0:ℝ) < 10), Real.log_rpow (by norm_num : (0:ℝ) < 255)]
  rw [mul_div_mul_left _ _ (by norm_num : (94:ℝ) ≠ 0)]
  norm_num

lemma strength_ten_all_lt_hundred :
    (20 : ℝ) + (Real.log 10 / Real.log 255) * 80 < 100 := by
  have hpos : 0 < Real.log 255 := Real.log_pos (by norm_num)
  have hlt : Real.log 10 < Real.log 255 := Real.log_lt_log (by norm_num) (by norm_num)
  have hdiv : Real.log 10 / Real.log 255 < 1 := (div_lt_one hpos).mpr hlt
  linarith

/-- C6 counterexample: `get_password_strength(10, true, true, true, true)`
is not `100.0`; the spec's computation `20 + 80 * log_94(10^94) = 100` is
wrong, since the base of the logarithm is `255^94`, not `10^94`'s own
base. -/
theorem get_password_strength_ten_ne_hundred :
    (Generator.new (fun _ => 0)).get_password_strength 10 true true true true ≠ 100 := by
  rw [strength_ten_all_eval]
  exact ne_of_lt strength_ten_all_lt_hundred

/-- C6 (amended): `get_password_strength(10, true, true, true, true)`
equals `20 + 80 * (ln 10 / ln 255)` (approximately 53.24), strictly less
than 100. -/
theorem get_password_strength_ten_value :
    (Generator.new (fun _ => 0)).get_password_strength 10 true true true true
        = 20 + (Real.log 10 / Real.log 255) * 80 ∧
    (Generator.new (fun _ => 0)).get_password_strength 10 true true true true < 100 := by
  refine ⟨strength_ten_all_eval _, ?_⟩
  rw [strength_ten_all_eval]
  exact strength_ten_all_lt_hundred
